import Mathlib

/-!
# Verification of the `cipher_tools` Vigenère cryptanalysis pipeline

A shallow embedding of `cipher_tools.py` and `vigenere_cracking.py`.

Modelling conventions:
* Python strings are `List Nat` of code points (the source manipulates
  characters through `ord`/`chr` arithmetic).
* Python dicts mapping patterns to occurrence lists are insertion-ordered
  association lists (`PTable`); assignment updates an existing key in place
  or appends a fresh key at the end, exactly like a Python dict.
* Recursive Python functions are embedded with an explicit fuel argument;
  `maximize_patterns` returns `Option` (`none` models a Python
  `RecursionError`, i.e. the recursion never reaching its base case).
* Python exceptions are modelled by `Except Err`.
-/

/-- Errors the Python source can raise: `AssertionError` on the length
assertion (the spec's `InvalidArgument`), `ZeroDivisionError` on an empty
key, `IndexError` on `[0]` of an empty list, `RecursionError` on unbounded
recursion. -/
inductive Err where
  | invalidArgument
  | zeroDivision
  | indexFault
  | recursionLimit
deriving DecidableEq, Repr

/-- A pattern table: Python dict from pattern (string) to its list of
occurrence indices, in insertion order. -/
abbrev PTable := List (List Nat × List Nat)

/-- Python slice `text[i:i+n]` for nonnegative bounds (clamps at the end). -/
def pySlice (text : List Nat) (i n : Nat) : List Nat :=
  (text.drop i).take n

/-- `k in t` for a Python dict. -/
def containsKey (t : PTable) (k : List Nat) : Bool :=
  t.any (fun e => e.1 == k)

/-- Python dict assignment `t[k] = v`: update the value of an existing key in
place, otherwise append the new key at the end. -/
def pyInsert (t : PTable) (k : List Nat) (v : List Nat) : PTable :=
  if containsKey t k then
    t.map (fun e => if e.1 == k then (e.1, v) else e)
  else
    t ++ [(k, v)]

/-- Python dict `t[k].append(i)` with default-empty creation, as used by
`initialize_patterns`. -/
def pyAppendAt (t : PTable) (k : List Nat) (i : Nat) : PTable :=
  if containsKey t k then
    t.map (fun e => if e.1 == k then (e.1, e.2 ++ [i]) else e)
  else
    t ++ [(k, [i])]

/-- Dict lookup (first entry with the given key). -/
def plookup (t : PTable) (k : List Nat) : Option (List Nat) :=
  (t.find? (fun e => e.1 == k)).map (fun e => e.2)

/-- `for each_pattern in recursive_patterns: patterns[each_pattern] = ...`:
write every entry of `upd` into `base` in order. -/
def pyUpdateAll (base upd : PTable) : PTable :=
  upd.foldl (fun acc e => pyInsert acc e.1 e.2) base

/-- `list(set(xs))` for ints, keeping first occurrences (the concrete
iteration order of a Python set is unspecified; only the underlying set is
used downstream, via intersections and sorting). -/
def pyDedupeI (l : List Int) : List Int :=
  l.foldl (fun acc x => if acc.contains x then acc else acc ++ [x]) []

/-- `find_matches(text, pattern, candidate_locations)` from
`vigenere_cracking.py`: keep the candidate indices at which `pattern`
actually occurs, skipping candidates that would run past the text. -/
def find_matches (text pattern : List Nat) (candidate_locations : List Nat) :
    List Nat :=
  candidate_locations.filter (fun each =>
    decide (each + pattern.length ≤ text.length) &&
      (pySlice text each pattern.length == pattern))

/-- The body of the inner loop of `maximize_patterns`: form the one-longer
slice starting at occurrence `index` of `entry` and register it when it still
matches more than once. -/
def innerStep (crypt_text : List Nat) (entry : List Nat × List Nat)
    (acc : PTable) (index : Nat) : PTable :=
  let tentative := pySlice crypt_text index (entry.1.length + 1)
  let matchList := find_matches crypt_text tentative entry.2
  if 1 < matchList.length then pyInsert acc tentative matchList else acc

/-- The body of the outer loop of `maximize_patterns`: skip patterns already
at `maximum_pattern_length`, otherwise run the inner loop over all
occurrences. -/
def outerStep (crypt_text : List Nat) (maximum_pattern_length : Nat)
    (acc : PTable) (entry : List Nat × List Nat) : PTable :=
  if maximum_pattern_length < entry.1.length + 1 then acc
  else entry.2.foldl (innerStep crypt_text entry) acc

/-- The double loop of `maximize_patterns` building `new_patterns`. -/
def stepNew (crypt_text : List Nat) (patterns : PTable)
    (maximum_pattern_length : Nat) : PTable :=
  patterns.foldl (outerStep crypt_text maximum_pattern_length) []

/-- `maximize_patterns(crypt_text, patterns, maximum_pattern_length)`, with
explicit recursion fuel; `none` models the recursion never bottoming out
(Python `RecursionError`).  When the step adds no new pattern (`changed`
stays false) the table is returned; otherwise the function recurses on the
new patterns and writes the recursive results back into the table. -/
def maximize_patterns : Nat → List Nat → PTable → Nat → Option PTable
  | 0, _, _, _ => none
  | fuel + 1, crypt_text, patterns, maximum_pattern_length =>
    let new_patterns := stepNew crypt_text patterns maximum_pattern_length
    if new_patterns.isEmpty then some patterns
    else
      match maximize_patterns fuel crypt_text new_patterns
          maximum_pattern_length with
      | none => none
      | some recursive_patterns => some (pyUpdateAll patterns recursive_patterns)

/-- Insert `x` in front of the first element `y` with `le x y`; together with
`pySorted` this is a stable sort, the exact semantics of Python's
`sorted`. -/
def insertOrdered {α : Type} (le : α → α → Bool) (x : α) : List α → List α
  | [] => [x]
  | y :: ys => if le x y then x :: y :: ys else y :: insertOrdered le x ys

/-- Stable insertion sort: earlier elements are inserted in front of
`le`-equivalent later ones, so elements comparing equal keep their original
order, exactly like Python's `sorted`. -/
def pySorted {α : Type} (le : α → α → Bool) : List α → List α
  | [] => []
  | x :: xs => insertOrdered le x (pySorted le xs)

/-- `initialize_patterns(crypt_text, minimum_pattern_length)`: collect every
window of the minimum length with its occurrence indices (the loop breaks at
the first index whose window would run past the text), sort by occurrence
count descending (`sorted(..., key=lambda x: len(x[1]), reverse=True)`,
a stable sort), then keep entries until the first with at most one
occurrence. -/
def initialize_patterns (crypt_text : List Nat)
    (minimum_pattern_length : Nat) : PTable :=
  let patterns :=
    ((List.range crypt_text.length).takeWhile
        (fun index => decide (index + minimum_pattern_length ≤ crypt_text.length))).foldl
      (fun acc index =>
        pyAppendAt acc (pySlice crypt_text index minimum_pattern_length) index)
      []
  let sorted := pySorted (fun a b => decide (b.2.length ≤ a.2.length)) patterns
  sorted.takeWhile (fun e => decide (2 ≤ e.2.length))

/-- First index at which `sub` occurs in `hay`, if any (Python `in` /
`str.index`). -/
def findSubIdx (hay sub : List Nat) : Option Nat :=
  (List.range (hay.length + 1)).find? (fun i => sub.isPrefixOf (hay.drop i))

/-- One suspect/larger comparison from the inner loop of
`remove_redundant_patterns`, including its deliberate three-way branch on
`difference`:  `some b` says whether the suspect's occurrences coincide with
the larger pattern's, and `none` models the `assert 2 + 2 == 5` failure that
the source places on the `difference < 0` arm. -/
def checkPair (suspect_key larger_key : List Nat)
    (suspect_locs larger_locs : List Nat) : Option Bool :=
  if larger_key.length ≤ suspect_key.length then some false
  else
    match findSubIdx larger_key suspect_key with
    | none => some false
    | some idx =>
      if suspect_locs.length ≠ larger_locs.length then some false
      else
        let difference : Int := (idx : Int)
        if 0 < difference then
          some (suspect_locs.map (fun (x : Nat) => (x : Int) - difference)
            == larger_locs.map (fun (x : Nat) => (x : Int)))
        else if difference = 0 then some (suspect_locs == larger_locs)
        else none

/-- Total version of `checkPair` (the assertion arm is proved unreachable in
`claim_C10_assert_unreachable`). -/
def pairRedundant (suspect_key larger_key : List Nat)
    (suspect_locs larger_locs : List Nat) : Bool :=
  (checkPair suspect_key larger_key suspect_locs larger_locs).getD false

/-- The keys marked for deletion by one pass of
`remove_redundant_patterns`: a suspect is marked as soon as some larger key
makes `pairRedundant` true (the `break` commits the suspect after its first
coinciding larger pattern). -/
def keysToDelete (patterns : PTable) : List (List Nat) :=
  (patterns.filter (fun s =>
      patterns.any (fun l => pairRedundant s.1 l.1 s.2 l.2))).map
    (fun e => e.1)

/-- `del non_redundant_patterns[k]` for every marked key. -/
def deleteKeys (ks : List (List Nat)) (patterns : PTable) : PTable :=
  patterns.filter (fun e => !(ks.any (fun k => k == e.1)))

/-- The recursion of `remove_redundant_patterns` with explicit fuel: run one
marking pass; if nothing was marked return the table, otherwise delete the
marked keys and recurse. -/
def remove_redundantAux : Nat → PTable → PTable
  | 0, patterns => patterns
  | fuel + 1, patterns =>
    let kd := keysToDelete patterns
    if kd.isEmpty then patterns
    else remove_redundantAux fuel (deleteKeys kd patterns)

/-- `remove_redundant_patterns(patterns)`: every recursion step deletes at
least one key, so `patterns.length + 1` fuel always reaches the fixpoint. -/
def remove_redundant_patterns (patterns : PTable) : PTable :=
  remove_redundantAux (patterns.length + 1) patterns

/-- Heap-level embedding of `remove_redundant_patterns` for the frame claim:
the heap is a list of dict objects addressed by index, the argument is a
reference.  Each call deep-copies its argument into a fresh cell, deletes the
marked keys only in that copy, and recurses on the copy,
mirroring `copy.deepcopy` / `del` in the source. -/
def rrpHeapAux : Nat → List PTable → Nat → List PTable × Nat
  | 0, heap, ref => (heap, ref)
  | fuel + 1, heap, ref =>
    let patterns := heap.getD ref []
    let copyRef := heap.length
    let heap1 := heap ++ [patterns]
    let kd := keysToDelete patterns
    if kd.isEmpty then (heap1, copyRef)
    else rrpHeapAux fuel (heap1.set copyRef (deleteKeys kd patterns)) copyRef

/-- Heap-level `remove_redundant_patterns`: returns the final heap and a
reference to the result object. -/
def remove_redundant_heap (heap : List PTable) (ref : Nat) :
    List PTable × Nat :=
  rrpHeapAux ((heap.getD ref []).length + 1) heap ref

/-- `get_pattern_distances(patterns)`: per pattern, the set of consecutive
differences of its occurrence list; skip the pattern when the set has more
than one element, raise `IndexError` when it is empty (`list(deltas)[0]`),
and collect the single period otherwise.  The final `list(set(...))`
de-duplication is applied by the caller below. -/
def gpdLoop : PTable → Except Err (List Int)
  | [] => .ok []
  | e :: rest =>
    let a := e.2.dropLast
    let b := e.2.drop 1
    let deltas := pyDedupeI (List.zipWith (fun (y x : Nat) => (y : Int) - (x : Int)) b a)
    if 1 < deltas.length then gpdLoop rest
    else
      match deltas with
      | [] => .error .indexFault
      | d :: _ => (gpdLoop rest).map (fun l => d :: l)

/-- `get_pattern_distances` including its trailing `list(set(...))`. -/
def get_pattern_distances (patterns : PTable) : Except Err (List Int) :=
  (gpdLoop patterns).map pyDedupeI

/-- `get_factors(number)`: divisors from 1 to `number` in ascending order
(empty for non-positive input, like `range(1, number+1)`). -/
def get_factors (number : Int) : List Int :=
  ((List.range' 1 number.toNat).map (fun (i : Nat) => (i : Int))).filter
    (fun i => number % i == 0)

/-- `sorted(xs, reverse=True)` for ints. -/
def sortDescI (l : List Int) : List Int :=
  pySorted (fun a b => decide (b ≤ a)) l

/-- `vigenere_kasiski_test(crypt_text, minimum_pattern_length,
maximum_pattern_length)` with explicit recursion fuel for the
`maximize_patterns` stage.  The unconditional `factors_of_distances[0]`
of the source raises `IndexError` when no valid period was found. -/
def vigenere_kasiski_test (fuel : Nat) (crypt_text : List Nat)
    (minimum_pattern_length maximum_pattern_length : Nat) :
    Except Err (List Int) :=
  let patterns0 := initialize_patterns crypt_text minimum_pattern_length
  match maximize_patterns fuel crypt_text patterns0 maximum_pattern_length with
  | none => .error .recursionLimit
  | some patterns1 =>
    let patterns2 := remove_redundant_patterns patterns1
    match get_pattern_distances patterns2 with
    | .error e => .error e
    | .ok ds =>
      let pattern_distances := pyDedupeI ds
      let factors_of_distances := pattern_distances.map get_factors
      match factors_of_distances with
      | [] => .error .indexFault
      | f0 :: rest =>
        .ok (sortDescI (rest.foldl
          (fun acc s => acc.filter (fun x => s.contains x)) f0))

/-! ## TextCipher: `cipher_tools.py` -/

/-- `rotate_letter(letter, rotate_by)`: Caesar-shift a single code point,
lowercase and uppercase handled separately, everything else unchanged
(Python `%` on ints is `Int.emod`). -/
def rotate_letter (letter : Nat) (rotate_by : Int) : Nat :=
  if 97 ≤ letter ∧ letter ≤ 122 then
    ((((letter : Int) - 97 + rotate_by) % 26) + 97).toNat
  else if 65 ≤ letter ∧ letter ≤ 90 then
    ((((letter : Int) - 65 + rotate_by) % 26) + 65).toNat
  else letter

/-- ASCII `str.lower` on a code point. -/
def pyLowerCode (c : Nat) : Nat :=
  if 65 ≤ c ∧ c ≤ 90 then c + 32 else c

/-- The cycled per-position shift list of `vigenere_encode`:
`key_list * (len(text)//len(key)) + key_list[:len(text)%len(key)]`. -/
def key_text_list (textLen : Nat) (key_list : List Int) : List Int :=
  (List.replicate (textLen / key_list.length) key_list).flatten ++
    key_list.take (textLen % key_list.length)

/-- `vigenere_encode(text, key)`: assert `len(text) >= len(key)`
(`InvalidArgument`), lower the key, turn it into shift amounts, cycle it to
the text's length (which divides by zero on an empty key), and rotate
position by position. -/
def vigenere_encode (text key : List Nat) : Except Err (List Nat) :=
  if text.length < key.length then .error .invalidArgument
  else if key.length = 0 then .error .zeroDivision
  else
    let key_list : List Int :=
      (key.map pyLowerCode).map (fun (c : Nat) => (c : Int) - 97)
    .ok ((text.zip (key_text_list text.length key_list)).map
      (fun cr => rotate_letter cr.1 cr.2))

/-- `vigenere_decode(crypt_text, key)`: assert the length precondition,
mirror each key letter around `a` (`chr((26 - (ord(c) - ord('a'))) % 26 + ord('a'))`)
and encode with the inverted key. -/
def vigenere_decode (crypt_text key : List Nat) : Except Err (List Nat) :=
  if crypt_text.length < key.length then .error .invalidArgument
  else
    let keyLower := key.map pyLowerCode
    let decryption_key :=
      keyLower.map (fun (c : Nat) => (((26 - ((c : Int) - 97)) % 26) + 97).toNat)
    vigenere_encode crypt_text decryption_key

/-- Code points of a string literal, for concrete scenarios. -/
def strCodes (s : String) : List Nat :=
  s.data.map Char.toNat

/-- The ciphertext of the spec's concrete scenario:
`vigenere_encode("cryptoisshortforcryptography", "abcd")`. -/
def kasiskiDemoCipher : List Nat :=
  [99, 115, 97, 115, 116, 112, 107, 118, 115, 105, 113, 117, 116, 103, 113,
   117, 99, 115, 97, 115, 116, 112, 105, 117, 97, 113, 106, 98]

/-- The table `maximize_patterns` returns on `kasiskiDemoCipher` with
minimum pattern length 3 and maximum 6 (used for concrete witnesses). -/
def kasiskiDemoTable : PTable :=
  [([99, 115, 97], [0, 16]), ([115, 97, 115], [1, 17]),
   ([97, 115, 116], [2, 18]), ([115, 116, 112], [3, 19]),
   ([99, 115, 97, 115], [0, 16]), ([115, 97, 115, 116], [1, 17]),
   ([97, 115, 116, 112], [2, 18]), ([99, 115, 97, 115, 116], [0, 16]),
   ([115, 97, 115, 116, 112], [1, 17]),
   ([99, 115, 97, 115, 116, 112], [0, 16])]

instance : DecidableEq (Except Err (List Int)) := fun x y =>
  match x, y with
  | .ok a, .ok b =>
    if h : a = b then isTrue (by rw [h]) else isFalse (by simp [h])
  | .error a, .error b =>
    if h : a = b then isTrue (by rw [h]) else isFalse (by simp [h])
  | .ok _, .error _ => isFalse (by simp)
  | .error _, .ok _ => isFalse (by simp)

instance : DecidableEq (Except Err (List Nat)) := fun x y =>
  match x, y with
  | .ok a, .ok b =>
    if h : a = b then isTrue (by rw [h]) else isFalse (by simp [h])
  | .error a, .error b =>
    if h : a = b then isTrue (by rw [h]) else isFalse (by simp [h])
  | .ok _, .error _ => isFalse (by simp)
  | .error _, .ok _ => isFalse (by simp)

/-! ## Predicates used by the specification statements -/

/-- The value list of a table entry is sound: every listed index is an
in-bounds actual occurrence of the pattern in the text (exactly what the
guard and the slice comparison of `find_matches` establish). -/
def soundEntry (crypt_text p l : List Nat) : Prop :=
  ∀ i ∈ l, i + p.length ≤ crypt_text.length ∧ pySlice crypt_text i p.length = p

/-- A self-regenerating table entry: its pattern reaches the end of the text
at one of its (at least two) occurrences, all of which are genuine, and its
length is still below the extension cap.  `maximize_patterns` rebuilds such
an entry verbatim on every recursion level, so its presence forces
non-termination. -/
def Sticky (crypt_text : List Nat) (maximum_pattern_length : Nat)
    (e : List Nat × List Nat) : Prop :=
  2 ≤ e.2.length ∧ e.1.length + 1 ≤ maximum_pattern_length ∧
    find_matches crypt_text e.1 e.2 = e.2 ∧
    ∃ i ∈ e.2, i + e.1.length = crypt_text.length

/-- The keys of a table are pairwise distinct (always true of a Python
dict). -/
def NodupKeys (t : PTable) : Prop :=
  (t.map Prod.fst).Nodup

/-- A non-empty all-alphabetic key, the domain on which the Vigenère
round-trip is claimed. -/
def AlphaKey (key : List Nat) : Prop :=
  key ≠ [] ∧ ∀ c ∈ key, (97 ≤ c ∧ c ≤ 122) ∨ (65 ≤ c ∧ c ≤ 90)

/-! ## Basic lemmas on the dict embedding -/

theorem pyDedupeI_nil : pyDedupeI [] = [] := rfl

theorem pySlice_length (t : List Nat) (i n : Nat) :
    (pySlice t i n).length = min n (t.length - i) := by
  simp [pySlice]

theorem pySlice_take (t : List Nat) (i n m : Nat) (h : m ≤ n) :
    (pySlice t i n).take m = pySlice t i m := by
  simp [pySlice, List.take_take, Nat.min_eq_left h]

theorem pySlice_eq_drop {t : List Nat} {i n : Nat} (h : t.length ≤ i + n) :
    pySlice t i n = t.drop i := by
  apply List.take_of_length_le
  simp
  omega

/-! ## Claim C10: the defensive assertion branch is unreachable -/

/-- **C10.** In `remove_redundant_patterns`, the `difference < 0` arm — the
deliberate `assert 2 + 2 == 5` — is unreachable: once the containment check
has passed, `larger_key.index(suspect_key)` is a non-negative index, so
`checkPair` never reports the assertion failure (`none`), on any inputs. -/
theorem claim_C10_assert_unreachable (suspect_key larger_key : List Nat)
    (suspect_locs larger_locs : List Nat) :
    checkPair suspect_key larger_key suspect_locs larger_locs ≠ none := by
  unfold checkPair
  split
  · simp
  · cases h : findSubIdx larger_key suspect_key with
    | none => simp
    | some idx =>
      simp only []
      split
      · simp
      · have h0 : (0 : Int) ≤ (idx : Int) := Int.ofNat_nonneg idx
        split
        · simp
        · split
          · simp
          · omega

/-! ## Claim C6: `remove_redundant_patterns` is idempotent -/

theorem deleteKeys_length_lt {patterns : PTable}
    (h : keysToDelete patterns ≠ []) :
    (deleteKeys (keysToDelete patterns) patterns).length < patterns.length := by
  obtain ⟨k, hk⟩ := List.exists_mem_of_ne_nil _ h
  have hk' := hk
  unfold keysToDelete at hk'
  obtain ⟨e, he, hek⟩ := List.exists_of_mem_map hk'
  have hmem := List.mem_of_mem_filter he
  have hany : (keysToDelete patterns).any (fun x => x == e.1) = true :=
    List.any_eq_true.mpr ⟨k, hk, by simp [hek]⟩
  unfold deleteKeys
  refine List.length_filter_lt_length_iff_exists.mpr ⟨e, hmem, ?_⟩
  simp [hany]

theorem remove_redundantAux_fix :
    ∀ (fuel : Nat) (patterns : PTable), patterns.length < fuel →
      keysToDelete (remove_redundantAux fuel patterns) = [] := by
  intro fuel
  induction fuel with
  | zero => intro patterns h; omega
  | succ n ih =>
    intro patterns h
    rw [remove_redundantAux]
    by_cases hkd : keysToDelete patterns = []
    · simp [hkd]
    · have hlt := deleteKeys_length_lt hkd
      simp only [List.isEmpty_iff, hkd, if_neg]
      exact ih _ (by omega)

/-- **C6.** `remove_redundant_patterns` is idempotent: running the
deduplication twice yields the same table as running it once, for every
pattern table. -/
theorem claim_C6_remove_redundant_idempotent (patterns : PTable) :
    remove_redundant_patterns (remove_redundant_patterns patterns) =
      remove_redundant_patterns patterns := by
  have h := remove_redundantAux_fix (patterns.length + 1) patterns (by omega)
  unfold remove_redundant_patterns at h ⊢
  rw [remove_redundantAux]
  simp [h]

/-! ## Claim C9: `remove_redundant_patterns` does not mutate its argument -/

theorem rrpHeapAux_frame :
    ∀ (fuel : Nat) (heap : List PTable) (ref i : Nat), i < heap.length →
      ((rrpHeapAux fuel heap ref).1)[i]? = heap[i]? := by
  intro fuel
  induction fuel with
  | zero => intro heap ref i _; rfl
  | succ n ih =>
    intro heap ref i hi
    rw [rrpHeapAux]
    have happ : (heap ++ [heap.getD ref []])[i]? = heap[i]? :=
      List.getElem?_append_left hi
    by_cases hkd : keysToDelete (heap.getD ref []) = []
    · simp only [hkd, List.isEmpty_nil, if_pos]
      exact happ
    · simp only [List.isEmpty_iff, hkd, if_neg, not_false_iff]
      rw [ih]
      · rw [List.getElem?_set_ne (by omega)]
        exact happ
      · simp
        omega

theorem rrpHeapAux_content :
    ∀ (fuel : Nat) (heap : List PTable) (ref : Nat),
      ((rrpHeapAux fuel heap ref).1).getD (rrpHeapAux fuel heap ref).2 [] =
        remove_redundantAux fuel (heap.getD ref []) := by
  intro fuel
  induction fuel with
  | zero => intro heap ref; rfl
  | succ n ih =>
    intro heap ref
    rw [rrpHeapAux, remove_redundantAux]
    by_cases hkd : keysToDelete (heap.getD ref []) = []
    · simp only [hkd, List.isEmpty_nil, if_pos]
      rw [List.getD_eq_getElem?_getD, List.getElem?_append_right (le_refl _)]
      simp
    · simp only [List.isEmpty_iff, hkd, if_neg, not_false_iff]
      rw [ih]
      congr 1
      rw [List.getD_eq_getElem?_getD, List.getElem?_set_self]
      · rfl
      · simp
  
/-- **C9.** The heap-level embedding of `remove_redundant_patterns` leaves
every pre-existing object unchanged — in particular its argument: all
deletions go to the fresh deep copy, so after the call the argument object
still holds exactly the table it held before. -/
theorem claim_C9_no_mutation (heap : List PTable) (ref : Nat)
    (h : ref < heap.length) :
    ((remove_redundant_heap heap ref).1)[ref]? = heap[ref]? :=
  rrpHeapAux_frame _ heap ref ref h

/-- Witness for C9 at a concrete heap. -/
theorem claim_C9_no_mutation_witness :
    ((remove_redundant_heap [[([97], [0, 1])]] 0).1)[0]? =
      some [(([97] : List Nat), [0, 1])] :=
  (claim_C9_no_mutation [[([97], [0, 1])]] 0 (by decide)).trans (by decide)

/-! ## Claim C4: empty period list makes the Kasiski test raise `IndexError` -/

/-- **C4, counterexample.** On `"abcdef"` the distance analysis yields no
valid periods, and `vigenere_kasiski_test` fails with the `IndexError` of the
unconditional `factors_of_distances[0]` access — not with an
`InvalidArgument` error as claimed. -/
theorem claim_C4_counterexample :
    maximize_patterns 1 (strCodes "abcdef")
        (initialize_patterns (strCodes "abcdef") 3) 6 = some [] ∧
      get_pattern_distances (remove_redundant_patterns []) = .ok [] ∧
      vigenere_kasiski_test 1 (strCodes "abcdef") 3 6 = .error .indexFault ∧
      vigenere_kasiski_test 1 (strCodes "abcdef") 3 6 ≠
        .error .invalidArgument := by
  refine ⟨by decide, by decide, by decide, by decide⟩

/-- **C4, amended.** Whenever the distance analysis of the pipeline's final
table yields no valid periods, `vigenere_kasiski_test` fails with the
`IndexError` of `factors_of_distances[0]` (not an `InvalidArgument`
error). -/
theorem claim_C4_empty_periods_index_fault (fuel : Nat)
    (crypt_text : List Nat) (minL maxL : Nat) (tbl : PTable)
    (hmax : maximize_patterns fuel crypt_text
      (initialize_patterns crypt_text minL) maxL = some tbl)
    (hper : get_pattern_distances (remove_redundant_patterns tbl) = .ok []) :
    vigenere_kasiski_test fuel crypt_text minL maxL = .error .indexFault := by
  unfold vigenere_kasiski_test
  simp only [hmax, hper]
  rfl

/-- Witness for the amended C4 at the concrete input `"abcdef"`. -/
theorem claim_C4_empty_periods_index_fault_witness :
    vigenere_kasiski_test 1 (strCodes "abcdef") 3 6 = .error .indexFault :=
  claim_C4_empty_periods_index_fault 1 (strCodes "abcdef") 3 6 []
    (by decide) (by decide)

/-! ## Claim C3: concrete Kasiski scenario -/

/-- **C3.** Running the Kasiski test (minimum pattern length 3, maximum 6)
on `vigenere_encode("cryptoisshortforcryptography", "abcd")` succeeds and
returns candidate key lengths that include 4, the true key length.
(Recursion fuel 10 is ample: the recursion depth is 4 on this input.) -/
theorem claim_C3_kasiski_scenario :
    ∃ crypt_text,
      vigenere_encode (strCodes "cryptoisshortforcryptography")
          (strCodes "abcd") = .ok crypt_text ∧
        ∃ lengths, vigenere_kasiski_test 10 crypt_text 3 6 = .ok lengths ∧
          4 ∈ lengths :=
  ⟨[99, 115, 97, 115, 116, 112, 107, 118, 115, 105, 113, 117, 116, 103, 113,
    117, 99, 115, 97, 115, 116, 112, 105, 117, 97, 113, 106, 98],
    by decide, [16, 8, 4, 2, 1], by decide, by decide⟩

/-! ## Claim C1: `maximize_patterns` can recurse forever -/

/-- **C1 (refuting the claim).** On `crypt_text = "abab"` with the valid
pattern table `{"ab": [0, 2]}` (both indices are genuine, in-bounds,
ascending occurrences of `"ab"`) and `maximum_pattern_length = 3`, the
extension step clamps the slice `crypt_text[2:5]` to `"ab"` itself, rebuilds
exactly the same table, and therefore recurses forever: no amount of fuel
makes `maximize_patterns` reach a fixpoint.  In Python this is a
`RecursionError`, contradicting the claimed termination. -/
theorem claim_C1_maximize_diverges :
    ∀ fuel : Nat,
      maximize_patterns fuel (strCodes "abab") [(strCodes "ab", [0, 2])] 3 =
        none := by
  intro fuel
  induction fuel with
  | zero => rfl
  | succ n ih =>
    rw [maximize_patterns]
    have hstep : stepNew (strCodes "abab") [(strCodes "ab", [0, 2])] 3 =
        [(strCodes "ab", [0, 2])] := by decide
    simp only [hstep, ih]
    rfl

/-! ## Claim C8: the length assertion of encode/decode -/

theorem vigenere_encode_invalid_iff (text key : List Nat) :
    vigenere_encode text key = .error .invalidArgument ↔
      text.length < key.length := by
  unfold vigenere_encode
  by_cases h1 : text.length < key.length
  · simp [h1]
  · rw [if_neg h1]
    refine iff_of_false ?_ h1
    by_cases h2 : key.length = 0
    · rw [if_pos h2]
      simp
    · rw [if_neg h2]
      simp

theorem vigenere_encode_ok (text key : List Nat) (h1 : key.length ≤ text.length)
    (h2 : key.length ≠ 0) : ∃ c, vigenere_encode text key = .ok c := by
  unfold vigenere_encode
  rw [if_neg (by omega), if_neg h2]
  exact ⟨_, rfl⟩

theorem vigenere_decode_invalid_iff (crypt_text key : List Nat) :
    vigenere_decode crypt_text key = .error .invalidArgument ↔
      crypt_text.length < key.length := by
  unfold vigenere_decode
  by_cases h1 : crypt_text.length < key.length
  · simp [h1]
  · rw [if_neg h1]
    refine iff_of_false ?_ h1
    intro hc
    rw [vigenere_encode_invalid_iff, List.length_map, List.length_map] at hc
    omega

/-- **C8.** `vigenere_encode` and `vigenere_decode` fail with the
`InvalidArgument` (assertion) error exactly when the key is longer than the
text; and when `len(text) >= len(key)` and the key is alphabetic, both
return a result without error. -/
theorem claim_C8_length_guard (text key : List Nat) :
    ((vigenere_encode text key = .error .invalidArgument ↔
        text.length < key.length) ∧
      (vigenere_decode text key = .error .invalidArgument ↔
        text.length < key.length)) ∧
    (AlphaKey key → key.length ≤ text.length →
      (∃ c, vigenere_encode text key = .ok c) ∧
        ∃ p, vigenere_decode text key = .ok p) := by
  refine ⟨⟨vigenere_encode_invalid_iff text key,
    vigenere_decode_invalid_iff text key⟩, fun ha hlen => ?_⟩
  have hk0 : key.length ≠ 0 := by
    intro h
    exact ha.1 (List.eq_nil_of_length_eq_zero h)
  refine ⟨vigenere_encode_ok text key hlen hk0, ?_⟩
  unfold vigenere_decode
  rw [if_neg (by omega)]
  refine vigenere_encode_ok text _ ?_ ?_
  · rw [List.length_map, List.length_map]
    exact hlen
  · rw [List.length_map, List.length_map]
    exact hk0

/-- Witness for C8 at `text = "abc"`, `key = "ab"`. -/
theorem claim_C8_length_guard_witness :
    (∃ c, vigenere_encode (strCodes "abc") (strCodes "ab") = .ok c) ∧
      ∃ p, vigenere_decode (strCodes "abc") (strCodes "ab") = .ok p :=
  (claim_C8_length_guard (strCodes "abc") (strCodes "ab")).2
    ⟨by decide, by decide⟩ (by decide)

/-! ## Claim C2: Vigenère round trip -/

theorem int_shift_cancel (a k : Int) (ha0 : 0 ≤ a) (ha : a < 26) :
    ((a + k) % 26 + (26 - k) % 26) % 26 = a := by
  show ((a + k) % 26 + (26 - k) % 26) % 26 = a
  rw [← Int.add_emod]
  have h : a + k + (26 - k) = a + 26 * 1 := by ring
  rw [h, Int.add_mul_emod_self_left]
  exact Int.emod_eq_of_lt ha0 ha

/-- Shifting a code point by any amount `k` and then by the mirrored amount
`(26 - k) % 26` restores it. -/
theorem rotate_letter_inv (x : Nat) (k : Int) :
    rotate_letter (rotate_letter x k) ((26 - k) % 26) = x := by
  by_cases hl : 97 ≤ x ∧ x ≤ 122
  · have hnn : 0 ≤ ((x : Int) - 97 + k) % 26 := Int.emod_nonneg _ (by norm_num)
    have hlt : ((x : Int) - 97 + k) % 26 < 26 := Int.emod_lt_of_pos _ (by norm_num)
    have hy : rotate_letter x k = ((((x : Int) - 97 + k) % 26) + 97).toNat := by
      unfold rotate_letter
      rw [if_pos hl]
    rw [hy]
    have hyr : 97 ≤ ((((x : Int) - 97 + k) % 26) + 97).toNat ∧
        ((((x : Int) - 97 + k) % 26) + 97).toNat ≤ 122 := by omega
    unfold rotate_letter
    rw [if_pos hyr]
    have hcast : ((((((x : Int) - 97 + k) % 26) + 97).toNat : Int)) =
        (((x : Int) - 97 + k) % 26) + 97 := by omega
    rw [hcast]
    have harg : (((x : Int) - 97 + k) % 26) + 97 - 97 + (26 - k) % 26 =
        (((x : Int) - 97) + k) % 26 + (26 - k) % 26 := by ring
    rw [harg, int_shift_cancel ((x : Int) - 97) k (by omega) (by omega)]
    omega
  · by_cases hu : 65 ≤ x ∧ x ≤ 90
    · have hnn : 0 ≤ ((x : Int) - 65 + k) % 26 := Int.emod_nonneg _ (by norm_num)
      have hlt : ((x : Int) - 65 + k) % 26 < 26 := Int.emod_lt_of_pos _ (by norm_num)
      have hy : rotate_letter x k = ((((x : Int) - 65 + k) % 26) + 65).toNat := by
        unfold rotate_letter
        rw [if_neg hl, if_pos hu]
      rw [hy]
      have hyr : ¬ (97 ≤ ((((x : Int) - 65 + k) % 26) + 65).toNat ∧
          ((((x : Int) - 65 + k) % 26) + 65).toNat ≤ 122) ∧
          (65 ≤ ((((x : Int) - 65 + k) % 26) + 65).toNat ∧
          ((((x : Int) - 65 + k) % 26) + 65).toNat ≤ 90) := by omega
      unfold rotate_letter
      rw [if_neg hyr.1, if_pos hyr.2]
      have hcast : ((((((x : Int) - 65 + k) % 26) + 65).toNat : Int)) =
          (((x : Int) - 65 + k) % 26) + 65 := by omega
      rw [hcast]
      have harg : (((x : Int) - 65 + k) % 26) + 65 - 65 + (26 - k) % 26 =
          (((x : Int) - 65) + k) % 26 + (26 - k) % 26 := by ring
      rw [harg, int_shift_cancel ((x : Int) - 65) k (by omega) (by omega)]
      omega
    · have hx : ∀ r : Int, rotate_letter x r = x := by
        intro r
        unfold rotate_letter
        rw [if_neg hl, if_neg hu]
      rw [hx, hx]

theorem flatten_replicate_length (kl : List Int) (m : Nat) :
    ((List.replicate m kl).flatten).length = m * kl.length := by
  induction m with
  | zero => simp
  | succ mm ih =>
    rw [List.replicate_succ, List.flatten_cons, List.length_append, ih]
    ring

theorem flatten_replicate_getElem? (kl : List Int) :
    ∀ (m i : Nat), i < m * kl.length →
      ((List.replicate m kl).flatten)[i]? = kl[i % kl.length]? := by
  intro m
  induction m with
  | zero => intro i h; simp at h
  | succ mm ih =>
    intro i h
    rw [List.replicate_succ, List.flatten_cons]
    by_cases hi : i < kl.length
    · rw [List.getElem?_append_left hi, Nat.mod_eq_of_lt hi]
    · push_neg at hi
      rw [List.getElem?_append_right hi]
      have h2 : i - kl.length < mm * kl.length := by
        have hm : (mm + 1) * kl.length = mm * kl.length + kl.length := by ring
        omega
      rw [ih _ h2]
      have hmod : (i - kl.length) % kl.length = i % kl.length := by
        conv_rhs => rw [show i = (i - kl.length) + kl.length by omega]
        rw [Nat.add_mod_right]
      rw [hmod]

theorem key_text_list_length (n : Nat) (kl : List Int) (h : kl.length ≠ 0) :
    (key_text_list n kl).length = n := by
  unfold key_text_list
  rw [List.length_append, List.length_take, flatten_replicate_length]
  have hdm := Nat.div_add_mod n kl.length
  have hcomm : (n / kl.length) * kl.length = kl.length * (n / kl.length) :=
    Nat.mul_comm _ _
  have hlt : n % kl.length < kl.length := Nat.mod_lt _ (by omega)
  omega

theorem key_text_list_getElem? (n : Nat) (kl : List Int) (h : kl.length ≠ 0)
    (i : Nat) (hi : i < n) :
    (key_text_list n kl)[i]? = kl[i % kl.length]? := by
  unfold key_text_list
  have hf := flatten_replicate_length kl (n / kl.length)
  by_cases hi2 : i < (n / kl.length) * kl.length
  · rw [List.getElem?_append_left (by rw [hf]; exact hi2)]
    exact flatten_replicate_getElem? kl _ i hi2
  · push_neg at hi2
    rw [List.getElem?_append_right (by rw [hf]; exact hi2), hf]
    have hdm := Nat.div_add_mod n kl.length
    have hcomm : (n / kl.length) * kl.length = kl.length * (n / kl.length) :=
      Nat.mul_comm _ _
    have hlt : n % kl.length < kl.length := Nat.mod_lt _ (by omega)
    have hj : i - (n / kl.length) * kl.length < n % kl.length := by omega
    rw [List.getElem?_take_of_lt hj]
    have hidx : i % kl.length = i - (n / kl.length) * kl.length := by
      conv_lhs =>
        rw [show i = kl.length * (n / kl.length) +
          (i - (n / kl.length) * kl.length) by omega]
      rw [Nat.mul_add_mod]
      exact Nat.mod_eq_of_lt (by omega)
    rw [hidx]

/-! ## Claim C2: Vigenère round trip (list level) -/

theorem inv_toNat_cast (c : Nat) :
    ((((((26 - ((c : Int) - 97)) % 26) + 97).toNat : Nat) : Int)) - 97 =
      (26 - ((c : Int) - 97)) % 26 := by omega

/-- **C2.** For every text `T` and every alphabetic key `K` with
`len(K) <= len(T)`, encoding succeeds and decoding the result with the same
key returns `T` unchanged: decoding is encoding under the complementary
key, and the two per-position shifts cancel modulo 26. -/
theorem claim_C2_round_trip (text key : List Nat) (ha : AlphaKey key)
    (hlen : key.length ≤ text.length) :
    ∃ crypt_text, vigenere_encode text key = .ok crypt_text ∧
      vigenere_decode crypt_text key = .ok text := by
  have hk0 : key.length ≠ 0 := fun h => ha.1 (List.eq_nil_of_length_eq_zero h)
  have hkl : ((key.map pyLowerCode).map
      (fun (c : Nat) => (c : Int) - 97)).length = key.length := by
    rw [List.length_map, List.length_map]
  have henc : vigenere_encode text key =
      .ok ((text.zip (key_text_list text.length
        ((key.map pyLowerCode).map (fun (c : Nat) => (c : Int) - 97)))).map
        (fun cr => rotate_letter cr.1 cr.2)) := by
    unfold vigenere_encode
    rw [if_neg (by omega), if_neg hk0]
  refine ⟨_, henc, ?_⟩
  have hCl : ((text.zip (key_text_list text.length
      ((key.map pyLowerCode).map (fun (c : Nat) => (c : Int) - 97)))).map
      (fun cr => rotate_letter cr.1 cr.2)).length = text.length := by
    rw [List.length_map, List.length_zip,
      key_text_list_length _ _ (by omega)]
    omega
  have hDval : ∀ d ∈ (key.map pyLowerCode).map
      (fun (c : Nat) => ((((26 - ((c : Int) - 97)) % 26)) + 97).toNat),
      97 ≤ d ∧ d ≤ 122 := by
    intro d hd
    obtain ⟨c, _, hcd⟩ := List.exists_of_mem_map hd
    omega
  unfold vigenere_decode
  rw [if_neg (by rw [hCl]; omega)]
  have hDlen : ((key.map pyLowerCode).map
      (fun (c : Nat) => ((((26 - ((c : Int) - 97)) % 26)) + 97).toNat)).length
      = key.length := by
    rw [List.length_map, List.length_map]
  unfold vigenere_encode
  rw [if_neg (by rw [hCl, hDlen]; omega), if_neg (by rw [hDlen]; exact hk0)]
  have hDid : ((key.map pyLowerCode).map
      (fun (c : Nat) => ((((26 - ((c : Int) - 97)) % 26)) + 97).toNat)).map
        pyLowerCode =
      (key.map pyLowerCode).map
        (fun (c : Nat) => ((((26 - ((c : Int) - 97)) % 26)) + 97).toNat) := by
    have hid : ∀ d ∈ (key.map pyLowerCode).map
        (fun (c : Nat) => ((((26 - ((c : Int) - 97)) % 26)) + 97).toNat),
        pyLowerCode d = d := by
      intro d hd
      have := hDval d hd
      unfold pyLowerCode
      rw [if_neg (by omega)]
    exact (List.map_congr_left hid).trans (List.map_id _)
  rw [hDid, List.map_map]
  have hinv : ((key.map pyLowerCode).map
      ((fun (c : Nat) => (c : Int) - 97) ∘
        (fun (c : Nat) => ((((26 - ((c : Int) - 97)) % 26)) + 97).toNat))) =
      (key.map pyLowerCode).map
        (fun (c : Nat) => (26 - ((c : Int) - 97)) % 26) := by
    refine List.map_congr_left ?_
    intro c _
    simp only [Function.comp_apply]
    exact inv_toNat_cast c
  rw [hinv, hCl]
  simp only [Except.ok.injEq]
  apply List.ext_getElem?
  intro i
  by_cases hi : i < text.length
  · have hinvlen : ((key.map pyLowerCode).map
        (fun (c : Nat) => (26 - ((c : Int) - 97)) % 26)).length =
        key.length := by
      rw [List.length_map, List.length_map]
    have hiL : i % key.length < key.length := Nat.mod_lt _ (by omega)
    have hKlen : (key.map pyLowerCode).length = key.length := List.length_map _ _
    rw [List.getElem?_map, List.zip_eq_zipWith, List.getElem?_zipWith]
    rw [List.getElem?_map, List.zip_eq_zipWith, List.getElem?_zipWith]
    rw [key_text_list_getElem? _ _ (by rw [hkl]; omega) _ hi]
    rw [key_text_list_getElem? _ _ (by rw [hinvlen]; omega) _ hi]
    rw [hkl, hinvlen]
    simp only [List.getElem?_map, List.getElem?_eq_getElem hi,
      List.getElem?_eq_getElem hiL, Option.map_some]
    exact congrArg some (rotate_letter_inv _ _)
  · push_neg at hi
    rw [List.getElem?_eq_none (by rw [List.length_map, List.length_zip, hCl]; omega),
      List.getElem?_eq_none (by omega)]

/-- Witness for C2 at `text = "hello"`, `key = "ab"`. -/
theorem claim_C2_round_trip_witness :
    ∃ crypt_text,
      vigenere_encode (strCodes "hello") (strCodes "ab") = .ok crypt_text ∧
        vigenere_decode crypt_text (strCodes "ab") = .ok (strCodes "hello") :=
  claim_C2_round_trip (strCodes "hello") (strCodes "ab")
    ⟨by decide, by decide⟩ (by decide)

/-! ## Dict lemmas for the pattern-maximization claims -/

theorem containsKey_iff {t : PTable} {k : List Nat} :
    containsKey t k = true ↔ ∃ v, (k, v) ∈ t := by
  unfold containsKey
  rw [List.any_eq_true]
  constructor
  · rintro ⟨⟨k1, v1⟩, he, heq⟩
    simp only [beq_iff_eq] at heq
    exact ⟨v1, by rwa [heq] at he⟩
  · rintro ⟨v, hv⟩
    exact ⟨(k, v), hv, by simp⟩

theorem containsKey_eq_false_iff {t : PTable} {k : List Nat} :
    containsKey t k = false ↔ ∀ e ∈ t, e.1 ≠ k := by
  rw [← Bool.not_eq_true, containsKey_iff]
  push_neg
  constructor
  · rintro h ⟨k1, v1⟩ he hek
    simp only at hek
    exact h v1 (by rwa [hek] at he)
  · intro h v hv
    exact h (k, v) hv rfl

theorem mem_pyInsert {t : PTable} {k v : List Nat} {e : List Nat × List Nat}
    (h : e ∈ pyInsert t k v) : e = (k, v) ∨ (e ∈ t ∧ e.1 ≠ k) := by
  unfold pyInsert at h
  split at h
  · obtain ⟨a, ha, hae⟩ := List.exists_of_mem_map h
    by_cases hak : a.1 = k
    · left
      rw [← hae]
      simp [hak]
    · right
      rw [← hae]
      simp only [hak, beq_iff_eq, if_neg hak]
      exact ⟨ha, hak⟩
  · rename_i hnc
    have hnc' : containsKey t k = false := by
      simpa using hnc
    rcases List.mem_append.mp h with h1 | h2
    · exact Or.inr ⟨h1, containsKey_eq_false_iff.mp hnc' e h1⟩
    · left
      simpa using h2

theorem pyInsert_nodupKeys {t : PTable} {k v : List Nat} (h : NodupKeys t) :
    NodupKeys (pyInsert t k v) := by
  unfold NodupKeys at h ⊢
  unfold pyInsert
  split
  · have hkeys : (t.map (fun e => if e.1 == k then (e.1, v) else e)).map
        Prod.fst = t.map Prod.fst := by
      rw [List.map_map]
      refine List.map_congr_left ?_
      intro e _
      by_cases hek : e.1 = k <;> simp [hek]
    rw [hkeys]
    exact h
  · rename_i hnc
    have hnc' : containsKey t k = false := by simpa using hnc
    rw [List.map_append, List.nodup_append]
    refine ⟨h, by simp, ?_⟩
    intro x hx
    simp only [List.map_cons, List.map_nil, List.mem_singleton]
    intro hxk
    obtain ⟨e, he, hex⟩ := List.exists_of_mem_map hx
    exact (containsKey_eq_false_iff.mp hnc') e he (by rw [hex, hxk])

theorem containsKey_pyInsert_self {t : PTable} {k v : List Nat} :
    containsKey (pyInsert t k v) k = true := by
  unfold pyInsert
  split
  · rename_i hc
    rw [containsKey_iff] at hc ⊢
    obtain ⟨w, hw⟩ := hc
    refine ⟨v, ?_⟩
    have heq : ((k, v) : List Nat × List Nat) =
        (fun e => if e.1 == k then (e.1, v) else e) (k, w) := by simp
    rw [heq]
    exact List.mem_map_of_mem _ hw
  · rw [containsKey_iff]
    exact ⟨v, List.mem_append_right _ (by simp)⟩

theorem containsKey_pyInsert_of {t : PTable} {k v k' : List Nat}
    (h : containsKey t k' = true) : containsKey (pyInsert t k v) k' = true := by
  unfold pyInsert
  split
  · rw [containsKey_iff] at h ⊢
    obtain ⟨w, hw⟩ := h
    by_cases hkk : k' = k
    · refine ⟨v, ?_⟩
      have heq : ((k', v) : List Nat × List Nat) =
          (fun e => if e.1 == k then (e.1, v) else e) (k', w) := by simp [hkk]
      rw [heq]
      exact List.mem_map_of_mem _ hw
    · refine ⟨w, ?_⟩
      have heq : ((k', w) : List Nat × List Nat) =
          (fun e => if e.1 == k then (e.1, v) else e) (k', w) := by simp [hkk]
      rw [heq]
      exact List.mem_map_of_mem _ hw
  · unfold containsKey at h ⊢
    rw [List.any_eq_true] at h ⊢
    obtain ⟨e, he, hek⟩ := h
    exact ⟨e, List.mem_append_left _ he, hek⟩

theorem find?_map_key {t : PTable} {k v : List Nat} :
    (t.map (fun e => if e.1 == k then (e.1, v) else e)).find?
        (fun e => e.1 == k) =
      (t.find? (fun e => e.1 == k)).map
        (fun e => if e.1 == k then (e.1, v) else e) := by
  rw [List.find?_map]
  have hcomp : ((fun (e : List Nat × List Nat) => e.1 == k) ∘
      (fun e => if e.1 == k then (e.1, v) else e)) =
      (fun (e : List Nat × List Nat) => e.1 == k) := by
    funext e
    by_cases hek : e.1 = k <;> simp [hek]
  rw [hcomp]

theorem plookup_pyInsert_self {t : PTable} {k v : List Nat} :
    plookup (pyInsert t k v) k = some v := by
  unfold plookup pyInsert
  split
  · rename_i hc
    rw [find?_map_key]
    have hex : ∃ e, t.find? (fun e => e.1 == k) = some e := by
      rw [← Option.isSome_iff_exists, List.find?_isSome]
      unfold containsKey at hc
      rw [List.any_eq_true] at hc
      exact hc
    obtain ⟨e, he⟩ := hex
    have hek := List.find?_some he
    simp only [beq_iff_eq] at hek
    rw [he]
    simp [hek]
  · rw [List.find?_append]
    rename_i hnc
    have hnc' : containsKey t k = false := by simpa using hnc
    have hnone : t.find? (fun e => e.1 == k) = none := by
      rw [List.find?_eq_none]
      intro e he
      simp only [beq_iff_eq]
      exact containsKey_eq_false_iff.mp hnc' e he
    rw [hnone]
    simp

theorem plookup_pyInsert_ne {t : PTable} {k v k' : List Nat} (h : k' ≠ k) :
    plookup (pyInsert t k v) k' = plookup t k' := by
  unfold plookup pyInsert
  split
  · rw [List.find?_map]
    have hcomp : ((fun (e : List Nat × List Nat) => e.1 == k') ∘
        (fun e => if e.1 == k then (e.1, v) else e)) =
        (fun (e : List Nat × List Nat) => e.1 == k') := by
      funext e
      by_cases hek : e.1 = k <;> simp [hek]
    rw [hcomp]
    cases hf : t.find? (fun e => e.1 == k') with
    | none => simp
    | some e =>
      have hek := List.find?_some hf
      simp only [beq_iff_eq] at hek
      have hne : e.1 ≠ k := by rw [hek]; exact h
      simp [hne]
  · rw [List.find?_append]
    cases hf : t.find? (fun e => e.1 == k') with
    | none =>
      have hsingle : (([(k, v)] : PTable).find? (fun e => e.1 == k')) = none := by
        rw [List.find?_eq_none]
        intro e he
        simp only [List.mem_singleton] at he
        subst he
        simpa using (Ne.symm h)
      simp [hsingle]
    | some e => simp

theorem plookup_mem {t : PTable} {k v : List Nat} (h : plookup t k = some v) :
    (k, v) ∈ t := by
  unfold plookup at h
  cases hf : t.find? (fun e => e.1 == k) with
  | none => simp [hf] at h
  | some e =>
    rw [hf] at h
    simp only [Option.map_some', Option.some.injEq] at h
    have hek := List.find?_some hf
    simp only [beq_iff_eq] at hek
    have hmem := List.mem_of_find?_eq_some hf
    have heq : e = (k, v) := by
      obtain ⟨e1, e2⟩ := e
      simp only at hek h
      rw [hek, h]
    rwa [heq] at hmem

theorem plookup_eq_none_iff {t : PTable} {k : List Nat} :
    plookup t k = none ↔ ∀ e ∈ t, e.1 ≠ k := by
  unfold plookup
  rw [Option.map_eq_none', List.find?_eq_none]
  simp

theorem plookup_of_mem_nodup {t : PTable} {k v : List Nat} (hn : NodupKeys t)
    (h : (k, v) ∈ t) : plookup t k = some v := by
  induction t with
  | nil => simp at h
  | cons e rest ih =>
    unfold plookup
    rcases List.mem_cons.mp h with he | hrest
    · rw [List.find?_cons_of_pos _ (by rw [← he]; simp)]
      rw [← he]
      rfl
    · have hkrest : k ∈ rest.map Prod.fst := by
        have := List.mem_map_of_mem Prod.fst hrest
        simpa using this
      have hek : e.1 ≠ k := by
        unfold NodupKeys at hn
        rw [List.map_cons, List.nodup_cons] at hn
        intro hek
        exact hn.1 (hek ▸ hkrest)
      rw [List.find?_cons_of_neg _ (by simpa using hek)]
      have hn' : NodupKeys rest := by
        unfold NodupKeys at hn ⊢
        rw [List.map_cons, List.nodup_cons] at hn
        exact hn.2
      exact ih hn' hrest

theorem plookup_append {t₁ t₂ : PTable} {k : List Nat} :
    plookup (t₁ ++ t₂) k = (plookup t₁ k).orElse (fun _ => plookup t₂ k) := by
  unfold plookup
  rw [List.find?_append]
  cases t₁.find? (fun e => e.1 == k) <;> simp

theorem pyUpdateAll_cons {base : PTable} {e : List Nat × List Nat}
    {rest : PTable} :
    pyUpdateAll base (e :: rest) = pyUpdateAll (pyInsert base e.1 e.2) rest :=
  rfl

theorem pyUpdateAll_nodupKeys {base upd : PTable} (h : NodupKeys base) :
    NodupKeys (pyUpdateAll base upd) := by
  induction upd generalizing base with
  | nil => exact h
  | cons e rest ih =>
    rw [pyUpdateAll_cons]
    exact ih (pyInsert_nodupKeys h)

theorem plookup_pyUpdateAll {base upd : PTable} (hn : NodupKeys upd)
    (k : List Nat) :
    plookup (pyUpdateAll base upd) k =
      (plookup upd k).orElse (fun _ => plookup base k) := by
  induction upd generalizing base with
  | nil => simp [pyUpdateAll, plookup]
  | cons e rest ih =>
    rw [pyUpdateAll_cons]
    have hn' : NodupKeys rest := by
      unfold NodupKeys at hn ⊢
      rw [List.map_cons, List.nodup_cons] at hn
      exact hn.2
    rw [ih hn']
    by_cases hk : k = e.1
    · have hrest : plookup rest k = none := by
        rw [plookup_eq_none_iff]
        intro e' he' hek
        unfold NodupKeys at hn
        rw [List.map_cons, List.nodup_cons] at hn
        exact hn.1 (by rw [hk] at hek; rw [← hek]; exact List.mem_map_of_mem _ he')
      rw [hrest]
      have hcons : plookup (e :: rest) k = some e.2 := by
        unfold plookup
        rw [List.find?_cons_of_pos _ (by simp [hk])]
        rfl
      rw [hcons, hk, plookup_pyInsert_self]
      rfl
    · have hcons : plookup (e :: rest) k = plookup rest k := by
        unfold plookup
        rw [List.find?_cons_of_neg _ (by simpa using (Ne.symm hk))]
      rw [hcons, plookup_pyInsert_ne hk]

theorem pyUpdateAll_disjoint_append {base upd : PTable} (hn : NodupKeys upd)
    (hdis : ∀ e ∈ upd, containsKey base e.1 = false) :
    pyUpdateAll base upd = base ++ upd := by
  induction upd generalizing base with
  | nil => simp [pyUpdateAll]
  | cons e rest ih =>
    rw [pyUpdateAll_cons]
    have hins : pyInsert base e.1 e.2 = base ++ [e] := by
      unfold pyInsert
      rw [if_neg (by rw [hdis e (List.mem_cons_self _ _)]; simp)]
    rw [hins]
    have hn' : NodupKeys rest := by
      unfold NodupKeys at hn
      rw [List.map_cons, List.nodup_cons] at hn
      exact hn.2
    have hdis' : ∀ e' ∈ rest, containsKey (base ++ [e]) e'.1 = false := by
      intro e' he'
      rw [containsKey_eq_false_iff]
      intro a ha
      rcases List.mem_append.mp ha with h1 | h2
      · exact containsKey_eq_false_iff.mp (hdis e' (List.mem_cons_of_mem _ he')) a h1
      · simp only [List.mem_singleton] at h2
        subst h2
        unfold NodupKeys at hn
        rw [List.map_cons, List.nodup_cons] at hn
        intro hae
        exact hn.1 (by rw [hae]; exact List.mem_map_of_mem _ he')
    rw [ih hn' hdis', List.append_assoc]
    rfl

/-! ## `find_matches` lemmas -/

theorem mem_find_matches {text pattern : List Nat} {cands : List Nat}
    {i : Nat} :
    i ∈ find_matches text pattern cands ↔
      i ∈ cands ∧ i + pattern.length ≤ text.length ∧
        pySlice text i pattern.length = pattern := by
  unfold find_matches
  rw [List.mem_filter]
  simp [and_assoc]

theorem find_matches_sublist (text pattern : List Nat) (cands : List Nat) :
    (find_matches text pattern cands).Sublist cands :=
  List.filter_sublist _

theorem find_matches_subset (text pattern : List Nat) (cands : List Nat) :
    find_matches text pattern cands ⊆ cands :=
  (find_matches_sublist text pattern cands).subset

theorem find_matches_idem (text pattern : List Nat) (cands : List Nat) :
    find_matches text pattern (find_matches text pattern cands) =
      find_matches text pattern cands := by
  unfold find_matches
  apply List.filter_eq_self.mpr
  intro a ha
  exact List.mem_filter.mp ha |>.2

theorem find_matches_pairwise {text pattern : List Nat} {cands : List Nat}
    (h : List.Pairwise (· < ·) cands) :
    List.Pairwise (· < ·) (find_matches text pattern cands) :=
  h.sublist (find_matches_sublist text pattern cands)

theorem find_matches_sound (text pattern : List Nat) (cands : List Nat) :
    soundEntry text pattern (find_matches text pattern cands) := by
  intro i hi
  have := mem_find_matches.mp hi
  exact ⟨this.2.1, this.2.2⟩

/-! ## `stepNew` characterization -/

theorem innerStep_cases (ct : List Nat) (base : List Nat × List Nat)
    (acc : PTable) (i : Nat) :
    innerStep ct base acc i = acc ∨
      (1 < (find_matches ct (pySlice ct i (base.1.length + 1)) base.2).length ∧
        innerStep ct base acc i =
          pyInsert acc (pySlice ct i (base.1.length + 1))
            (find_matches ct (pySlice ct i (base.1.length + 1)) base.2)) := by
  simp only [innerStep]
  split
  · rename_i hgt
    exact Or.inr ⟨hgt, rfl⟩
  · exact Or.inl rfl

theorem inner_fold_mem (ct : List Nat) (base : List Nat × List Nat)
    (P : List Nat × List Nat → Prop)
    (hP : ∀ i ∈ base.2,
      1 < (find_matches ct (pySlice ct i (base.1.length + 1)) base.2).length →
      P (pySlice ct i (base.1.length + 1),
        find_matches ct (pySlice ct i (base.1.length + 1)) base.2)) :
    ∀ (l : List Nat), (∀ i ∈ l, i ∈ base.2) → ∀ (acc : PTable),
      (∀ e ∈ acc, P e) → ∀ e ∈ l.foldl (innerStep ct base) acc, P e := by
  intro l
  induction l with
  | nil => intro _ acc hacc e he; exact hacc e he
  | cons i rest ih =>
    intro hsub acc hacc e he
    rw [List.foldl_cons] at he
    refine ih (fun j hj => hsub j (List.mem_cons_of_mem _ hj)) _ ?_ e he
    intro e' he'
    rcases innerStep_cases ct base acc i with hcase | ⟨hgt, hcase⟩
    · rw [hcase] at he'
      exact hacc e' he'
    · rw [hcase] at he'
      rcases mem_pyInsert he' with heq | ⟨hmem, _⟩
      · rw [heq]
        exact hP i (hsub i (List.mem_cons_self _ _)) hgt
      · exact hacc e' hmem

theorem stepNew_prop (ct : List Nat) (maxL : Nat) (pats : PTable)
    (P : List Nat × List Nat → Prop)
    (hP : ∀ base ∈ pats, base.1.length + 1 ≤ maxL →
      ∀ i ∈ base.2,
      1 < (find_matches ct (pySlice ct i (base.1.length + 1)) base.2).length →
      P (pySlice ct i (base.1.length + 1),
        find_matches ct (pySlice ct i (base.1.length + 1)) base.2)) :
    ∀ e ∈ stepNew ct pats maxL, P e := by
  unfold stepNew
  suffices h : ∀ (l : PTable), (∀ b ∈ l, b ∈ pats) → ∀ acc,
      (∀ e ∈ acc, P e) → ∀ e ∈ l.foldl (outerStep ct maxL) acc, P e by
    exact h pats (fun b hb => hb) [] (by simp)
  intro l
  induction l with
  | nil => intro _ acc hacc e he; exact hacc e he
  | cons b rest ih =>
    intro hsub acc hacc e he
    rw [List.foldl_cons] at he
    refine ih (fun x hx => hsub x (List.mem_cons_of_mem _ hx)) _ ?_ e he
    intro e' he'
    unfold outerStep at he'
    split at he'
    · exact hacc e' he'
    · rename_i hguard
      refine inner_fold_mem ct b P ?_ b.2 (fun j hj => hj) acc hacc e' he'
      intro i hi hgt
      exact hP b (hsub b (List.mem_cons_self _ _)) (by omega) i hi hgt

theorem mem_stepNew {ct : List Nat} {maxL : Nat} {pats : PTable} :
    ∀ e ∈ stepNew ct pats maxL, ∃ base ∈ pats, ∃ i ∈ base.2,
      base.1.length + 1 ≤ maxL ∧
      e.1 = pySlice ct i (base.1.length + 1) ∧
      e.2 = find_matches ct e.1 base.2 ∧ 2 ≤ e.2.length := by
  apply stepNew_prop
  intro base hb hmax i hi hgt
  exact ⟨base, hb, i, hi, hmax, rfl, rfl, by
    simpa using Nat.succ_le_of_lt hgt⟩

theorem stepNew_nodupKeys (ct : List Nat) (pats : PTable) (maxL : Nat) :
    NodupKeys (stepNew ct pats maxL) := by
  unfold stepNew
  suffices h : ∀ (l : PTable) (acc : PTable), NodupKeys acc →
      NodupKeys (l.foldl (outerStep ct maxL) acc) by
    exact h pats [] (by simp [NodupKeys])
  intro l
  induction l with
  | nil => intro acc h; exact h
  | cons b rest ih =>
    intro acc hacc
    rw [List.foldl_cons]
    refine ih _ ?_
    unfold outerStep
    split
    · exact hacc
    · suffices hin : ∀ (m : List Nat) (acc2 : PTable), NodupKeys acc2 →
          NodupKeys (m.foldl (innerStep ct b) acc2) by
        exact hin b.2 acc hacc
      intro m
      induction m with
      | nil => intro acc2 h2; exact h2
      | cons i mrest ihm =>
        intro acc2 h2
        rw [List.foldl_cons]
        refine ihm _ ?_
        rcases innerStep_cases ct b acc2 i with hc | ⟨_, hc⟩
        · rw [hc]; exact h2
        · rw [hc]; exact pyInsert_nodupKeys h2

theorem innerStep_containsKey {ct : List Nat} {b : List Nat × List Nat}
    {acc : PTable} {i : Nat} {K : List Nat} (h : containsKey acc K = true) :
    containsKey (innerStep ct b acc i) K = true := by
  rcases innerStep_cases ct b acc i with hc | ⟨_, hc⟩
  · rw [hc]; exact h
  · rw [hc]; exact containsKey_pyInsert_of h

theorem inner_fold_containsKey {ct : List Nat} {b : List Nat × List Nat}
    {K : List Nat} :
    ∀ (m : List Nat) (acc : PTable), containsKey acc K = true →
      containsKey (m.foldl (innerStep ct b) acc) K = true := by
  intro m
  induction m with
  | nil => intro acc h; exact h
  | cons i rest ih =>
    intro acc h
    rw [List.foldl_cons]
    exact ih _ (innerStep_containsKey h)

theorem inner_fold_write {ct : List Nat} {b : List Nat × List Nat}
    {i0 : Nat} {K : List Nat}
    (hK : K = pySlice ct i0 (b.1.length + 1))
    (hgt : 1 < (find_matches ct (pySlice ct i0 (b.1.length + 1)) b.2).length) :
    ∀ (m : List Nat), i0 ∈ m → ∀ acc,
      containsKey (m.foldl (innerStep ct b) acc) K = true := by
  intro m
  induction m with
  | nil => simp
  | cons i rest ih =>
    intro hmem acc
    rw [List.foldl_cons]
    rcases List.mem_cons.mp hmem with heq | hrest
    · subst heq
      apply inner_fold_containsKey
      have hw : innerStep ct b acc i0 =
          pyInsert acc (pySlice ct i0 (b.1.length + 1))
            (find_matches ct (pySlice ct i0 (b.1.length + 1)) b.2) := by
        simp only [innerStep]
        rw [if_pos hgt]
      rw [hw, hK]
      exact containsKey_pyInsert_self
    · exact ih hrest _

theorem outerStep_containsKey {ct : List Nat} {maxL : Nat}
    {acc : PTable} {b : List Nat × List Nat} {K : List Nat}
    (h : containsKey acc K = true) :
    containsKey (outerStep ct maxL acc b) K = true := by
  unfold outerStep
  split
  · exact h
  · exact inner_fold_containsKey _ _ h

theorem outer_fold_containsKey {ct : List Nat} {maxL : Nat} {K : List Nat} :
    ∀ (l : PTable) (acc : PTable), containsKey acc K = true →
      containsKey (l.foldl (outerStep ct maxL) acc) K = true := by
  intro l
  induction l with
  | nil => intro acc h; exact h
  | cons b rest ih =>
    intro acc h
    rw [List.foldl_cons]
    exact ih _ (outerStep_containsKey h)

theorem stepNew_write {ct : List Nat} {maxL : Nat} {pats : PTable}
    {base : List Nat × List Nat} {i0 : Nat}
    (hb : base ∈ pats) (hmax : base.1.length + 1 ≤ maxL) (hi0 : i0 ∈ base.2)
    (hgt : 1 < (find_matches ct (pySlice ct i0 (base.1.length + 1))
      base.2).length) :
    containsKey (stepNew ct pats maxL)
      (pySlice ct i0 (base.1.length + 1)) = true := by
  obtain ⟨l₁, l₂, hsplit⟩ := List.append_of_mem hb
  unfold stepNew
  rw [hsplit, List.foldl_append, List.foldl_cons]
  apply outer_fold_containsKey
  have houter : outerStep ct maxL (l₁.foldl (outerStep ct maxL) []) base =
      base.2.foldl (innerStep ct base) (l₁.foldl (outerStep ct maxL) []) := by
    unfold outerStep
    rw [if_neg (by omega)]
  rw [houter]
  exact inner_fold_write rfl hgt base.2 hi0 _

theorem containsKey_ne_nil {t : PTable} {k : List Nat}
    (h : containsKey t k = true) : t ≠ [] := by
  intro hnil
  rw [hnil] at h
  simp [containsKey] at h

/-! ## Clamped extensions are self-regenerating (sticky) -/

theorem stepNew_sound (ct : List Nat) (pats : PTable) (maxL : Nat) :
    ∀ e ∈ stepNew ct pats maxL, soundEntry ct e.1 e.2 := by
  intro e he
  obtain ⟨base, _, i, _, _, _, hv, _⟩ := mem_stepNew e he
  rw [hv]
  exact find_matches_sound ct e.1 base.2

theorem stepNew_pairwise {ct : List Nat} {pats : PTable} {maxL : Nat}
    (h : ∀ e ∈ pats, List.Pairwise (· < ·) e.2) :
    ∀ e ∈ stepNew ct pats maxL, List.Pairwise (· < ·) e.2 := by
  intro e he
  obtain ⟨base, hb, i, _, _, _, hv, _⟩ := mem_stepNew e he
  rw [hv]
  exact find_matches_pairwise (h base hb)

theorem stepNew_minLen {ct : List Nat} {pats : PTable} {maxL L : Nat}
    (hsound : ∀ e ∈ pats, soundEntry ct e.1 e.2)
    (hlen : ∀ e ∈ pats, L ≤ e.1.length) :
    ∀ e ∈ stepNew ct pats maxL, L ≤ e.1.length := by
  intro e he
  obtain ⟨base, hb, i, hi, _, hkey, _, _⟩ := mem_stepNew e he
  have hbl := hlen base hb
  have hbs := (hsound base hb) i hi
  have hlen1 : e.1.length = min (base.1.length + 1) (ct.length - i) := by
    rw [hkey]
    exact pySlice_length ct i _
  omega

theorem stepNew_short_sticky {ct : List Nat} {pats : PTable} {maxL L : Nat}
    (hsound : ∀ e ∈ pats, soundEntry ct e.1 e.2)
    (hlen : ∀ e ∈ pats, L ≤ e.1.length) :
    ∀ e ∈ stepNew ct pats maxL, e.1.length ≤ L →
      e.1.length = L ∧ Sticky ct maxL e := by
  intro e he hshort
  obtain ⟨base, hb, i, hi, hmax, hkey, hv, h2⟩ := mem_stepNew e he
  have hbl := hlen base hb
  have hbs := (hsound base hb) i hi
  have hlen1 : e.1.length = min (base.1.length + 1) (ct.length - i) := by
    rw [hkey]
    exact pySlice_length ct i _
  have hbL : base.1.length = L := by omega
  have hiL : i + L = ct.length := by omega
  have heL : e.1.length = L := by omega
  have hdrop : e.1 = ct.drop i := by
    rw [hkey]
    exact pySlice_eq_drop (by omega)
  refine ⟨heL, h2, by omega, by rw [hv]; exact find_matches_idem _ _ _,
    i, ?_, by omega⟩
  rw [hv, mem_find_matches]
  refine ⟨hi, by omega, ?_⟩
  rw [pySlice_eq_drop (by omega), hdrop]

theorem sticky_diverges :
    ∀ (fuel : Nat) (ct : List Nat) (maxL L : Nat) (pats : PTable),
      (∀ e ∈ pats, soundEntry ct e.1 e.2) →
      (∀ e ∈ pats, L ≤ e.1.length) →
      (∃ e ∈ pats, e.1.length = L ∧ Sticky ct maxL e) →
      maximize_patterns fuel ct pats maxL = none := by
  intro fuel
  induction fuel with
  | zero => intro ct maxL L pats _ _ _; rfl
  | succ n ih =>
    rintro ct maxL L pats hsound hlen
      ⟨e, he, heL, h2, hmax, hidem, i, hi, hieq⟩
    have himem : i ∈ find_matches ct e.1 e.2 := by rw [hidem]; exact hi
    have hprops := mem_find_matches.mp himem
    have hdrop : e.1 = ct.drop i := by
      rw [← hprops.2.2]
      exact pySlice_eq_drop (by omega)
    have hkey : pySlice ct i (e.1.length + 1) = e.1 := by
      rw [pySlice_eq_drop (by omega), hdrop]
    have hgt : 1 <
        (find_matches ct (pySlice ct i (e.1.length + 1)) e.2).length := by
      rw [hkey, hidem]
      omega
    have hck : containsKey (stepNew ct pats maxL) e.1 = true := by
      have hw := stepNew_write he hmax hi hgt
      rwa [hkey] at hw
    obtain ⟨v, hv⟩ := containsKey_iff.mp hck
    obtain ⟨base, hb, j, hj, hbmax, hkey2, hv2, h2v⟩ := mem_stepNew (e.1, v) hv
    dsimp only at hkey2 hv2 h2v
    have hbl := hlen base hb
    have hbs := (hsound base hb) j hj
    have hlen2 : e.1.length = min (base.1.length + 1) (ct.length - j) := by
      rw [hkey2]
      exact pySlice_length ct j _
    have hji : j = i := by omega
    have hstick : Sticky ct maxL (e.1, v) := by
      unfold Sticky
      dsimp only
      refine ⟨h2v, hmax, by rw [hv2]; exact find_matches_idem _ _ _,
        i, ?_, by omega⟩
      rw [hv2, mem_find_matches]
      exact ⟨by rw [← hji]; exact hj, by omega, hprops.2.2⟩
    have hrec := ih ct maxL L (stepNew ct pats maxL)
      (stepNew_sound ct pats maxL) (stepNew_minLen hsound hlen)
      ⟨(e.1, v), hv, heL, hstick⟩
    have hne : stepNew ct pats maxL ≠ [] := containsKey_ne_nil hck
    have hempty : (stepNew ct pats maxL).isEmpty = false := by
      cases hie : (stepNew ct pats maxL).isEmpty
      · rfl
      · exact absurd (List.isEmpty_iff.mp hie) hne
    rw [maximize_patterns]
    simp only [hempty, Bool.false_eq_true, if_false, hrec]

/-! ## Main invariant of `maximize_patterns` over uniform tables -/

theorem maximize_main :
    ∀ (fuel : Nat) (ct : List Nat) (maxL L : Nat) (pats result : PTable),
      (∀ e ∈ pats, e.1.length = L ∧ soundEntry ct e.1 e.2 ∧
        List.Pairwise (· < ·) e.2) →
      NodupKeys pats →
      maximize_patterns fuel ct pats maxL = some result →
      NodupKeys result ∧
      (∀ e ∈ result, soundEntry ct e.1 e.2 ∧ List.Pairwise (· < ·) e.2 ∧
        L ≤ e.1.length) ∧
      (∀ e ∈ result, L < e.1.length →
        2 ≤ e.2.length ∧ ∃ l', plookup result (e.1.take (e.1.length - 1)) =
          some l' ∧ e.2 ⊆ l') ∧
      (∀ K : List Nat, K.length = L → plookup result K = plookup pats K) := by
  intro fuel
  induction fuel with
  | zero =>
    intro ct maxL L pats result _ _ h
    simp [maximize_patterns] at h
  | succ n ih =>
    intro ct maxL L pats result hInv hnd hres
    rw [maximize_patterns] at hres
    by_cases hemp : (stepNew ct pats maxL).isEmpty
    · rw [if_pos hemp] at hres
      simp only [Option.some.injEq] at hres
      subst hres
      refine ⟨hnd, ?_, ?_, fun K _ => rfl⟩
      · intro e he
        have h := hInv e he
        exact ⟨h.2.1, h.2.2, le_of_eq h.1.symm⟩
      · intro e he hlt
        exact absurd ((hInv e he).1 ▸ hlt) (lt_irrefl L)
    · rw [if_neg hemp] at hres
      cases hrec : maximize_patterns n ct (stepNew ct pats maxL) maxL with
      | none =>
        rw [hrec] at hres
        exact absurd hres (by simp)
      | some recResult =>
        rw [hrec] at hres
        simp only [Option.some.injEq] at hres
        have hsound : ∀ e ∈ pats, soundEntry ct e.1 e.2 :=
          fun e he => (hInv e he).2.1
        have hlenL : ∀ e ∈ pats, L ≤ e.1.length :=
          fun e he => le_of_eq (hInv e he).1.symm
        have hUnif : ∀ e ∈ stepNew ct pats maxL, e.1.length = L + 1 := by
          intro e he
          by_contra hne
          obtain ⟨base, hb, i, hi, hmax', hkey, _, _⟩ := mem_stepNew e he
          have hlen1 : e.1.length = min (base.1.length + 1) (ct.length - i) := by
            rw [hkey]
            exact pySlice_length ct i _
          have hbL : base.1.length = L := (hInv base hb).1
          have hbs := ((hInv base hb).2.1) i hi
          have hshort : e.1.length ≤ L := by omega
          obtain ⟨heL, hstick⟩ := stepNew_short_sticky hsound hlenL e he hshort
          have hdiv := sticky_diverges n ct maxL L (stepNew ct pats maxL)
            (stepNew_sound ct pats maxL) (stepNew_minLen hsound hlenL)
            ⟨e, he, heL, hstick⟩
          rw [hdiv] at hrec
          exact absurd hrec (by simp)
        have hInv' : ∀ e ∈ stepNew ct pats maxL, e.1.length = L + 1 ∧
            soundEntry ct e.1 e.2 ∧ List.Pairwise (· < ·) e.2 := by
          intro e he
          exact ⟨hUnif e he, stepNew_sound ct pats maxL e he,
            stepNew_pairwise (fun e' he' => (hInv e' he').2.2) e he⟩
        obtain ⟨R1, R2, R3, R4⟩ := ih ct maxL (L + 1) (stepNew ct pats maxL)
          recResult hInv' (stepNew_nodupKeys ct pats maxL) hrec
        have hdisj : ∀ e ∈ recResult, containsKey pats e.1 = false := by
          intro e he
          rw [containsKey_eq_false_iff]
          intro a ha hae
          have h1 : a.1.length = L := (hInv a ha).1
          have h2 : L + 1 ≤ e.1.length := (R2 e he).2.2
          rw [hae] at h1
          omega
        have happ : pyUpdateAll pats recResult = pats ++ recResult :=
          pyUpdateAll_disjoint_append R1 hdisj
        rw [← hres, happ]
        refine ⟨?_, ?_, ?_, ?_⟩
        · unfold NodupKeys
          rw [List.map_append, List.nodup_append]
          refine ⟨hnd, R1, ?_⟩
          intro a ha har
          obtain ⟨ea, hea, heaa⟩ := List.exists_of_mem_map ha
          obtain ⟨eb, heb, hebb⟩ := List.exists_of_mem_map har
          have h1 : ea.1.length = L := (hInv ea hea).1
          have h2 : L + 1 ≤ eb.1.length := (R2 eb heb).2.2
          rw [heaa] at h1
          rw [hebb] at h2
          have : a.length = L := by rw [← h1]
          omega
        · intro e he
          rcases List.mem_append.mp he with h1 | h2
          · have h := hInv e h1
            exact ⟨h.2.1, h.2.2, le_of_eq h.1.symm⟩
          · have h := R2 e h2
            exact ⟨h.1, h.2.1, by have := h.2.2; omega⟩
        · intro e he hlt
          rcases List.mem_append.mp he with h1 | h2
          · exact absurd ((hInv e h1).1 ▸ hlt) (lt_irrefl L)
          · have hge : L + 1 ≤ e.1.length := (R2 e h2).2.2
            by_cases hcase : e.1.length = L + 1
            · have hlook : plookup recResult e.1 = some e.2 :=
                plookup_of_mem_nodup R1 h2
              have hlookN : plookup (stepNew ct pats maxL) e.1 = some e.2 := by
                rw [← R4 e.1 hcase]
                exact hlook
              have hmemN : (e.1, e.2) ∈ stepNew ct pats maxL :=
                plookup_mem hlookN
              obtain ⟨base, hb, i, hi, hmax', hkey, hv, h2v⟩ :=
                mem_stepNew _ hmemN
              dsimp only at hkey hv h2v
              have hbL : base.1.length = L := (hInv base hb).1
              obtain ⟨hbound, hbslice⟩ := ((hInv base hb).2.1) i hi
              have hbslice' : pySlice ct i L = base.1 := by
                rw [← hbL]
                exact hbslice
              have hpfx : e.1.take (e.1.length - 1) = base.1 := by
                rw [hcase]
                simp only [Nat.add_sub_cancel]
                rw [hkey, hbL, pySlice_take ct i (L + 1) L (by omega)]
                exact hbslice'
              refine ⟨h2v, base.2, ?_, ?_⟩
              · rw [hpfx, plookup_append, plookup_of_mem_nodup hnd hb]
                rfl
              · rw [hv]
                exact find_matches_subset ct e.1 base.2
            · have hlt2 : L + 1 < e.1.length := by omega
              obtain ⟨h2v, l', hl', hsub⟩ := R3 e h2 hlt2
              refine ⟨h2v, l', ?_, hsub⟩
              rw [plookup_append]
              have hnone : plookup pats (e.1.take (e.1.length - 1)) = none := by
                rw [plookup_eq_none_iff]
                intro a ha hae
                have h1 : a.1.length = L := (hInv a ha).1
                rw [hae, List.length_take] at h1
                omega
              rw [hnone, hl']
              rfl
        · intro K hK
          rw [plookup_append]
          have hnone : plookup recResult K = none := by
            rw [plookup_eq_none_iff]
            intro a ha hae
            have h2 : L + 1 ≤ a.1.length := (R2 a ha).2.2
            rw [hae, hK] at h2
            omega
          rw [hnone]
          cases hp : plookup pats K <;> simp

/-! ## `initialize_patterns` invariants -/

theorem mem_pyAppendAt {t : PTable} {k : List Nat} {i : Nat}
    {e : List Nat × List Nat} (h : e ∈ pyAppendAt t k i) :
    (e ∈ t ∧ e.1 ≠ k) ∨
      (∃ old ∈ t, old.1 = k ∧ e = (old.1, old.2 ++ [i])) ∨
      e = (k, [i]) := by
  unfold pyAppendAt at h
  split at h
  · obtain ⟨a, ha, hae⟩ := List.exists_of_mem_map h
    by_cases hak : a.1 = k
    · right; left
      exact ⟨a, ha, hak, by rw [← hae]; simp [hak]⟩
    · left
      rw [← hae]
      simp only [hak, beq_iff_eq, if_neg hak]
      exact ⟨ha, hak⟩
  · rename_i hnc
    have hnc' : containsKey t k = false := by simpa using hnc
    rcases List.mem_append.mp h with h1 | h2
    · exact Or.inl ⟨h1, containsKey_eq_false_iff.mp hnc' e h1⟩
    · right; right
      simpa using h2

theorem pyAppendAt_nodupKeys {t : PTable} {k : List Nat} {i : Nat}
    (h : NodupKeys t) : NodupKeys (pyAppendAt t k i) := by
  unfold NodupKeys at h ⊢
  unfold pyAppendAt
  split
  · have hkeys : (t.map (fun e => if e.1 == k then (e.1, e.2 ++ [i]) else e)).map
        Prod.fst = t.map Prod.fst := by
      rw [List.map_map]
      refine List.map_congr_left ?_
      intro e _
      by_cases hek : e.1 = k <;> simp [hek]
    rw [hkeys]
    exact h
  · rename_i hnc
    have hnc' : containsKey t k = false := by simpa using hnc
    rw [List.map_append, List.nodup_append]
    refine ⟨h, by simp, ?_⟩
    intro x hx
    simp only [List.map_cons, List.map_nil, List.mem_singleton]
    intro hxk
    obtain ⟨e, he, hex⟩ := List.exists_of_mem_map hx
    exact (containsKey_eq_false_iff.mp hnc') e he (by rw [hex, hxk])

theorem initBuild_invariant (ct : List Nat) (minL : Nat) :
    ∀ (idxs : List Nat) (acc : PTable),
      (∀ i ∈ idxs, i + minL ≤ ct.length) →
      List.Pairwise (· < ·) idxs →
      (∀ e ∈ acc, e.1.length = minL ∧ soundEntry ct e.1 e.2 ∧
        List.Pairwise (· < ·) e.2 ∧ ∀ x ∈ e.2, ∀ j ∈ idxs, x < j) →
      NodupKeys acc →
      (∀ e ∈ idxs.foldl
          (fun acc index => pyAppendAt acc (pySlice ct index minL) index) acc,
        e.1.length = minL ∧ soundEntry ct e.1 e.2 ∧
          List.Pairwise (· < ·) e.2) ∧
      NodupKeys (idxs.foldl
        (fun acc index => pyAppendAt acc (pySlice ct index minL) index) acc) := by
  intro idxs
  induction idxs with
  | nil =>
    intro acc _ _ hacc hnd
    exact ⟨fun e he =>
      ⟨(hacc e he).1, (hacc e he).2.1, (hacc e he).2.2.1⟩, hnd⟩
  | cons i rest ih =>
    intro acc hbnd hpw hacc hnd
    rw [List.foldl_cons]
    have hkey_len : (pySlice ct i minL).length = minL := by
      rw [pySlice_length]
      have := hbnd i (List.mem_cons_self _ _)
      omega
    have hipw : ∀ j ∈ rest, i < j := (List.pairwise_cons.mp hpw).1
    apply ih
    · intro j hj
      exact hbnd j (List.mem_cons_of_mem _ hj)
    · exact (List.pairwise_cons.mp hpw).2
    · intro e he
      rcases mem_pyAppendAt he with ⟨hmem, _⟩ | ⟨old, hold, holdk, heq⟩ | heq
      · have h := hacc e hmem
        exact ⟨h.1, h.2.1, h.2.2.1,
          fun x hx j hj => h.2.2.2 x hx j (List.mem_cons_of_mem _ hj)⟩
      · have h := hacc old hold
        subst heq
        dsimp only
        refine ⟨h.1, ?_, ?_, ?_⟩
        · intro x hx
          rcases List.mem_append.mp hx with hx1 | hx2
          · exact h.2.1 x hx1
          · simp only [List.mem_singleton] at hx2
            subst hx2
            constructor
            · rw [h.1]
              exact hbnd x (List.mem_cons_self _ _)
            · rw [h.1, holdk]
        · rw [List.pairwise_append]
          refine ⟨h.2.2.1, List.pairwise_singleton _ _, ?_⟩
          intro x hx y hy
          simp only [List.mem_singleton] at hy
          subst hy
          exact h.2.2.2 x hx y (List.mem_cons_self _ _)
        · intro x hx j hj
          rcases List.mem_append.mp hx with hx1 | hx2
          · exact h.2.2.2 x hx1 j (List.mem_cons_of_mem _ hj)
          · simp only [List.mem_singleton] at hx2
            subst hx2
            exact hipw j hj
      · subst heq
        dsimp only
        refine ⟨hkey_len, ?_, List.pairwise_singleton _ _, ?_⟩
        · intro x hx
          simp only [List.mem_singleton] at hx
          subst hx
          refine ⟨by rw [hkey_len]; exact hbnd x (List.mem_cons_self _ _), ?_⟩
          rw [hkey_len]
        · intro x hx j hj
          simp only [List.mem_singleton] at hx
          subst hx
          exact hipw j hj
    · exact pyAppendAt_nodupKeys hnd

theorem insertOrdered_perm {α : Type} (le : α → α → Bool) (x : α) :
    ∀ l : List α, (insertOrdered le x l).Perm (x :: l) := by
  intro l
  induction l with
  | nil => exact List.Perm.refl _
  | cons y ys ih =>
    unfold insertOrdered
    split
    · exact List.Perm.refl _
    · exact (ih.cons y).trans (List.Perm.swap x y ys)

theorem pySorted_perm {α : Type} (le : α → α → Bool) :
    ∀ l : List α, (pySorted le l).Perm l := by
  intro l
  induction l with
  | nil => exact List.Perm.refl _
  | cons x xs ih =>
    unfold pySorted
    exact (insertOrdered_perm le x (pySorted le xs)).trans (ih.cons x)

theorem initialize_patterns_spec (ct : List Nat) (minL : Nat) :
    (∀ e ∈ initialize_patterns ct minL,
      e.1.length = minL ∧ soundEntry ct e.1 e.2 ∧
        List.Pairwise (· < ·) e.2 ∧ 2 ≤ e.2.length) ∧
    NodupKeys (initialize_patterns ct minL) := by
  have hbnd : ∀ i ∈ (List.range ct.length).takeWhile
      (fun index => decide (index + minL ≤ ct.length)), i + minL ≤ ct.length := by
    intro i hi
    simpa using List.mem_takeWhile_imp hi
  have hpw : List.Pairwise (· < ·) ((List.range ct.length).takeWhile
      (fun index => decide (index + minL ≤ ct.length))) :=
    (List.pairwise_lt_range _).sublist (List.takeWhile_sublist _)
  obtain ⟨hprops, hnd⟩ := initBuild_invariant ct minL _ []
    hbnd hpw (by simp) (by simp [NodupKeys])
  constructor
  · intro e he
    unfold initialize_patterns at he
    have hcnt : 2 ≤ e.2.length := by
      simpa using List.mem_takeWhile_imp he
    have hmem_sorted := List.takeWhile_subset _ he
    have hmem_build := (pySorted_perm _ _).mem_iff.mp hmem_sorted
    have h := hprops e hmem_build
    exact ⟨h.1, h.2.1, h.2.2, hcnt⟩
  · unfold initialize_patterns
    unfold NodupKeys
    have hperm := pySorted_perm
      (fun (a b : List Nat × List Nat) => decide (b.2.length ≤ a.2.length))
      (((List.range ct.length).takeWhile
          (fun index => decide (index + minL ≤ ct.length))).foldl
        (fun acc index => pyAppendAt acc (pySlice ct index minL) index) [])
    exact List.Nodup.sublist ((List.takeWhile_sublist _).map Prod.fst)
      ((hperm.map Prod.fst).symm.nodup hnd)

/-! ## Claim C5: pattern monotonicity -/

/-- **C5.** For every ciphertext and the pipeline's initial pattern table
(the output of `initialize_patterns`, as in `vigenere_kasiski_test`),
whenever `maximize_patterns` terminates, every pattern present in the
returned table whose length exceeds the minimum pattern length has an
occurrence-index list that is a subset of the occurrence-index list of its
one-character-shorter prefix, which is itself present in the table. -/
theorem claim_C5_pattern_monotonicity (fuel : Nat) (ct : List Nat)
    (minL maxL : Nat) (result : PTable)
    (hres : maximize_patterns fuel ct (initialize_patterns ct minL) maxL =
      some result)
    (p l : List Nat) (hlook : plookup result p = some l)
    (hlen : minL < p.length) :
    ∃ l', plookup result (p.take (p.length - 1)) = some l' ∧ l ⊆ l' := by
  obtain ⟨hprops, hnd⟩ := initialize_patterns_spec ct minL
  obtain ⟨R1, R2, R3, R4⟩ := maximize_main fuel ct maxL minL _ result
    (fun e he => ⟨(hprops e he).1, (hprops e he).2.1, (hprops e he).2.2.1⟩)
    hnd hres
  exact (R3 (p, l) (plookup_mem hlook) hlen).2

/-! ## Claim C7: occurrence lists are ascending with at least 2 entries -/

theorem maximize_added :
    ∀ (fuel : Nat) (ct : List Nat) (maxL : Nat) (pats result : PTable),
      (∀ e ∈ pats, List.Pairwise (· < ·) e.2) →
      maximize_patterns fuel ct pats maxL = some result →
      (NodupKeys pats → NodupKeys result) ∧
      ∀ K v, plookup result K = some v →
        plookup pats K = some v ∨
          (2 ≤ v.length ∧ List.Pairwise (· < ·) v) := by
  intro fuel
  induction fuel with
  | zero =>
    intro ct maxL pats result _ h
    simp [maximize_patterns] at h
  | succ n ih =>
    intro ct maxL pats result hpw hres
    rw [maximize_patterns] at hres
    by_cases hemp : (stepNew ct pats maxL).isEmpty
    · rw [if_pos hemp] at hres
      simp only [Option.some.injEq] at hres
      subst hres
      exact ⟨fun h => h, fun K v hv => Or.inl hv⟩
    · rw [if_neg hemp] at hres
      cases hrec : maximize_patterns n ct (stepNew ct pats maxL) maxL with
      | none =>
        rw [hrec] at hres
        exact absurd hres (by simp)
      | some recResult =>
        rw [hrec] at hres
        simp only [Option.some.injEq] at hres
        subst hres
        obtain ⟨hndrec, hlook⟩ := ih ct maxL (stepNew ct pats maxL) recResult
          (stepNew_pairwise hpw) hrec
        have hndrec' : NodupKeys recResult :=
          hndrec (stepNew_nodupKeys ct pats maxL)
        refine ⟨fun hnd => pyUpdateAll_nodupKeys hnd, ?_⟩
        intro K v hv
        rw [plookup_pyUpdateAll hndrec' K] at hv
        cases hr : plookup recResult K with
        | some w =>
          rw [hr] at hv
          have hv2 : w = v := Option.some.inj hv
          subst hv2
          rcases hlook K w hr with hleft | hright
          · obtain ⟨base, hb, i, hi, _, _, hval, h2v⟩ :=
              mem_stepNew (K, w) (plookup_mem hleft)
            dsimp only at hval h2v
            right
            refine ⟨h2v, ?_⟩
            rw [hval]
            exact find_matches_pairwise (hpw base hb)
          · exact Or.inr hright
        | none =>
          rw [hr] at hv
          exact Or.inl hv

/-- **C7.** Every pattern table produced by `initialize_patterns` maps each
retained pattern to a strictly ascending list of at least 2 occurrence
indices, and every pattern that `maximize_patterns` adds to a table whose
occurrence lists are strictly ascending likewise has at least 2 occurrences
in strictly ascending order. -/
theorem claim_C7_occurrence_invariants :
    (∀ (ct : List Nat) (minL : Nat), ∀ e ∈ initialize_patterns ct minL,
      2 ≤ e.2.length ∧ List.Pairwise (· < ·) e.2) ∧
    (∀ (fuel : Nat) (ct : List Nat) (maxL : Nat) (pats result : PTable),
      (∀ e ∈ pats, List.Pairwise (· < ·) e.2) →
      maximize_patterns fuel ct pats maxL = some result →
      ∀ K v, plookup result K = some v → plookup pats K = none →
        2 ≤ v.length ∧ List.Pairwise (· < ·) v) := by
  constructor
  · intro ct minL e he
    have h := (initialize_patterns_spec ct minL).1 e he
    exact ⟨h.2.2.2, h.2.2.1⟩
  · intro fuel ct maxL pats result hpw hres K v hv hnone
    rcases (maximize_added fuel ct maxL pats result hpw hres).2 K v hv with
      hleft | hright
    · rw [hnone] at hleft
      exact absurd hleft (by simp)
    · exact hright

/-- Witness for C5 on the concrete Kasiski scenario: the 4-character pattern
`"csas"` has occurrence list `[0, 16]`, a subset of the list of its prefix
`"csa"`. -/
theorem claim_C5_pattern_monotonicity_witness :
    ∃ l', plookup kasiskiDemoTable
        (([99, 115, 97, 115] : List Nat).take
          (([99, 115, 97, 115] : List Nat).length - 1)) = some l' ∧
      ([0, 16] : List Nat) ⊆ l' :=
  claim_C5_pattern_monotonicity 10 kasiskiDemoCipher 3 6 kasiskiDemoTable
    (by decide) [99, 115, 97, 115] [0, 16] (by decide) (by decide)

/-- Witness for C7 on the concrete Kasiski scenario: the pattern `"csas"`
added by `maximize_patterns` has the strictly ascending 2-element
occurrence list `[0, 16]`. -/
theorem claim_C7_occurrence_invariants_witness :
    2 ≤ ([0, 16] : List Nat).length ∧
      List.Pairwise (· < ·) ([0, 16] : List Nat) :=
  claim_C7_occurrence_invariants.2 10 kasiskiDemoCipher 6
    (initialize_patterns kasiskiDemoCipher 3) kasiskiDemoTable
    (by decide) (by decide) [99, 115, 97, 115] [0, 16] (by decide) (by decide)
